import Mathlib

/-!
Verification development for the bank-review analytics pipeline.

Shallow embedding of the repository's core logic:
* `src/bank_reviews/utils/text.py` — text normalization and review identity,
* `src/bank_reviews/nlp/sentiment.py` — margin-based sentiment labeling,
* `src/bank_reviews/nlp/themes.py` — lexicon-driven theme assignment,
* `src/bank_reviews/db/load.py` — row filtering, identity hashing and
  insert-or-ignore store semantics,
* `src/bank_reviews/insights/task4.py` — per-(bank, theme) aggregation,
* `src/bank_reviews/dashboard_gradio/impact.py` — coarse priority scoring.

Modelling conventions:
* Python strings are `List Char` (`Str` below); the repository targets
  English app reviews, so Unicode NFKC normalization (which fixes every
  ASCII string) is modelled as the identity, and `str.lower` / `\s` / `\w`
  are modelled on their ASCII behaviour, matching the source's character use.
* IEEE floats appear only in order comparisons and field arithmetic, so they
  are modelled by `ℚ` (exact for the comparisons the claims exercise).
* A cryptographic hex digest (`sha1`/`sha256`) is modelled by its preimage
  string: the digest is a fixed deterministic function of the preimage, so
  digest equality follows from preimage equality, and digest inequality is
  the content of collision resistance, which the source's deduplication
  correctness relies on.
-/

/-- A Python string, modelled as its list of characters. -/
abbrev Str := List Char

/-- Python's whitespace class (`\s` of `re`, and `str.strip()`'s default set)
restricted to ASCII: space, tab, newline, carriage return, vertical tab,
form feed. -/
def isPySpace (c : Char) : Bool :=
  decide (c.toNat = 32) || decide (c.toNat = 9) || decide (c.toNat = 10) ||
  decide (c.toNat = 13) || decide (c.toNat = 11) || decide (c.toNat = 12)

/-- `s.replace("​", "")` of `normalize_text`: removes every zero-width
space (U+200B, code point 8203). -/
def removeZWSP (s : Str) : Str :=
  s.filter (fun c => decide (c.toNat ≠ 8203))

/-- Python `s.strip()`: drop leading and trailing whitespace. -/
def pyStrip (s : Str) : Str :=
  ((s.dropWhile isPySpace).reverse.dropWhile isPySpace).reverse

/-- Auxiliary run-replacer: `subRunsAux p r inRun s` replaces every maximal
run of characters satisfying `p` with the single character `r`; `inRun`
records whether the previous character belonged to a run. This is
`re.sub(P+, r, s)` for a character class `P`. -/
def subRunsAux (p : Char → Bool) (r : Char) : Bool → Str → Str
  | _, [] => []
  | inRun, c :: cs =>
    if p c then
      if inRun then subRunsAux p r true cs
      else r :: subRunsAux p r true cs
    else c :: subRunsAux p r false cs

/-- `re.sub(P+, r, s)` for a character class `P`. -/
def subRuns (p : Char → Bool) (r : Char) (s : Str) : Str :=
  subRunsAux p r false s

/-- `_WS_RE.sub(" ", s)` of `utils/text.py`: collapse each whitespace run to
a single space. -/
def collapseWS (s : Str) : Str :=
  subRuns isPySpace ' ' s

/-- Unicode NFKC normalization (`unicodedata.normalize("NFKC", s)`).
NFKC fixes every ASCII string, and the repository's reviews are English app
reviews (the source calls this "light normalization safe for English app
reviews"), so it is modelled as the identity on the embedded fragment. -/
def nfkc (s : Str) : Str := s

/-- `normalize_text` of `src/bank_reviews/utils/text.py`: NFKC-normalize,
remove zero-width spaces, strip, lowercase, collapse whitespace runs.
`Char.toLower` is Python `str.lower` on the ASCII fragment. -/
def normalize_text (s : Str) : Str :=
  collapseWS (List.map Char.toLower (pyStrip (removeZWSP (nfkc s))))

/-- Python's `\w` word-character class (`[a-zA-Z0-9_]` on the ASCII
fragment). -/
def isWordChar (c : Char) : Bool :=
  (decide (48 ≤ c.toNat) && decide (c.toNat ≤ 57)) ||
  (decide (65 ≤ c.toNat) && decide (c.toNat ≤ 90)) ||
  (decide (97 ≤ c.toNat) && decide (c.toNat ≤ 122)) ||
  decide (c.toNat = 95)

/-- The character class of `_NON_WORD_RE = [^\w\s]+`. -/
def isNonWordNonSpace (c : Char) : Bool :=
  !(isWordChar c || isPySpace c)

/-- `simple_clean_for_matching` of `src/bank_reviews/utils/text.py`:
normalize, replace runs of punctuation-ish characters by a space, collapse
whitespace, strip. -/
def simple_clean_for_matching (s : Str) : Str :=
  pyStrip (collapseWS (subRuns isNonWordNonSpace ' ' (normalize_text s)))

/-- The `"||"` separator used by both identity-hash preimages. -/
def hashSep : Str := "||".toList

/-- `make_review_id` of `src/bank_reviews/utils/text.py`: the SHA-1 hex
digest of `"||".join([normalize_text(bank), normalize_text(source),
normalize_text(date), str(rating).strip(), normalize_text(review)])`.
The digest is modelled by its preimage (see the header); `rating` arrives
already stringified, as `str(rating)` produces. -/
def make_review_id (review bank source date rating : Str) : Str :=
  List.intercalate hashSep
    [normalize_text bank, normalize_text source, normalize_text date,
     pyStrip rating, normalize_text review]

/-- `label_from_probs` of `src/bank_reviews/nlp/sentiment.py`.
Probabilities and the margin are modelled as `ℚ` (the source compares
floats; every comparison the claims exercise is exact). -/
def label_from_probs (p_pos p_neg neutral_margin : ℚ) : String :=
  if |p_pos - p_neg| < neutral_margin then "NEUTRAL"
  else if p_neg < p_pos then "POSITIVE" else "NEGATIVE"

/-- C1: `label_from_probs` returns `NEUTRAL` iff `|p_pos − p_neg| <
neutral_margin`; otherwise `POSITIVE` exactly when `p_pos > p_neg` and
`NEGATIVE` otherwise; in particular an exact tie with margin 0 is labelled
`NEGATIVE` by the strict inequality. -/
theorem label_from_probs_correct (p_pos p_neg m : ℚ) :
    (label_from_probs p_pos p_neg m = "NEUTRAL" ↔ |p_pos - p_neg| < m) ∧
    (label_from_probs p_pos p_neg m = "POSITIVE" ↔
      ¬ |p_pos - p_neg| < m ∧ p_neg < p_pos) ∧
    (label_from_probs p_pos p_neg m = "NEGATIVE" ↔
      ¬ |p_pos - p_neg| < m ∧ ¬ p_neg < p_pos) ∧
    label_from_probs (1/2) (1/2) 0 = "NEGATIVE" := by
  have tie : label_from_probs (1/2) (1/2) 0 = "NEGATIVE" := by
    unfold label_from_probs; norm_num
  refine ⟨?_, ?_, ?_, tie⟩ <;>
    · by_cases h1 : |p_pos - p_neg| < m <;> by_cases h2 : p_neg < p_pos <;>
        simp [label_from_probs, h1, h2]

/-- `startsWith needle hay`: the needle occurs at the head of the haystack. -/
def startsWith : Str → Str → Bool
  | [], _ => true
  | _ :: _, [] => false
  | a :: as, b :: bs => a == b && startsWith as bs

/-- Python substring containment `needle in hay`. -/
def containsSub (needle : Str) : Str → Bool
  | [] => needle.isEmpty
  | c :: rest => startsWith needle (c :: rest) || containsSub needle rest

/-- `THEME_LEXICON` of `src/bank_reviews/nlp/themes.py`, in declaration
order (Python dicts preserve insertion order, which is the iteration order
`score_themes` and hence the sort's tie-break see): theme name, bigram
phrases, unigram words. -/
def THEME_LEXICON : List (String × List Str × List Str) :=
  [("ACCESS_AUTH",
    ["login error".toList, "sign in".toList, "reset password".toList,
     "wrong pin".toList, "otp code".toList, "verification code".toList],
    ["login".toList, "signin".toList, "password".toList, "pin".toList,
     "otp".toList, "verify".toList, "verification".toList,
     "biometric".toList, "fingerprint".toList]),
   ("TXN_RELIABILITY",
    ["slow transfer".toList, "transfer failed".toList,
     "payment failed".toList, "transaction failed".toList,
     "pending transaction".toList, "money not received".toList,
     "network error".toList],
    ["transfer".toList, "transaction".toList, "failed".toList,
     "pending".toList, "timeout".toList, "reversal".toList,
     "reversed".toList, "declined".toList, "delay".toList, "slow".toList]),
   ("STABILITY_BUGS",
    ["keeps crashing".toList, "app crashes".toList, "after update".toList,
     "not working".toList],
    ["crash".toList, "crashes".toList, "bug".toList, "freeze".toList,
     "stuck".toList, "hang".toList, "loading".toList, "error".toList,
     "update".toList]),
   ("UX_UI",
    ["user interface".toList, "easy to use".toList, "good ui".toList,
     "bad ui".toList],
    ["ui".toList, "ux".toList, "interface".toList, "design".toList,
     "layout".toList, "navigation".toList, "simple".toList,
     "confusing".toList, "language".toList]),
   ("SUPPORT_SERVICE",
    ["customer service".toList, "call center".toList, "no response".toList,
     "not helpful".toList],
    ["support".toList, "service".toList, "help".toList, "agent".toList,
     "branch".toList, "complaint".toList, "respond".toList,
     "response".toList])]

/-- `ThemeConfig` of `src/bank_reviews/nlp/themes.py`. `max_themes` is a
count, modelled as `ℕ`. -/
structure ThemeConfig where
  unigram_weight : ℚ := 1
  bigram_weight : ℚ := 2
  threshold : ℚ := 2
  allow_multilabel : Bool := true
  max_themes : ℕ := 2

/-- `_count_hits` of `themes.py`: how many of the terms occur as substrings
of the text. -/
def _count_hits (text : Str) (terms : List Str) : ℕ :=
  terms.countP (fun t => containsSub t text)

/-- `score_themes` of `themes.py`: per-theme weighted hit score over the
cleaned text, as an association list in lexicon declaration order (the
iteration order of the source's dict). -/
def score_themes (text : Str) (cfg : ThemeConfig) : List (String × ℚ) :=
  let t := simple_clean_for_matching text
  THEME_LEXICON.map (fun e =>
    (e.1, cfg.bigram_weight * (_count_hits t e.2.1 : ℚ) +
          cfg.unigram_weight * (_count_hits t e.2.2 : ℚ)))

/-- Insert into a descending-sorted list, before the first element of
strictly smaller score (so an element inserted from the left keeps its
place among equals). -/
def insertDesc (x : String × ℚ) : List (String × ℚ) → List (String × ℚ)
  | [] => [x]
  | y :: ys => if y.2 ≤ x.2 then x :: y :: ys else y :: insertDesc x ys

/-- Python's `sorted(scores.items(), key=..., reverse=True)`: a stable sort
by score descending (Python's sort is stable, and `reverse=True` keeps
equal elements in iteration order). -/
def sortDesc : List (String × ℚ) → List (String × ℚ)
  | [] => []
  | x :: xs => insertDesc x (sortDesc xs)

/-- The multilabel accumulation loop of `assign_themes` (`themes.py`
lines 75–80): walk the ranked tail, stop once `max_themes` themes are
collected, and append each theme whose score meets the threshold. -/
def pickLoop (maxThemes : ℕ) (threshold : ℚ) :
    List (String × ℚ) → List String → List String
  | [], picked => picked
  | e :: rest, picked =>
    if maxThemes ≤ picked.length then picked
    else if threshold ≤ e.2 then pickLoop maxThemes threshold rest (picked ++ [e.1])
    else pickLoop maxThemes threshold rest picked

/-- `assign_themes` of `themes.py`: returns `(theme_primary, themes)` where
`themes` is the `"|"`-joined picked list. The `[]` arm is unreachable
because the lexicon is nonempty (`ranked[0]` in the source). -/
def assign_themes (text : Str) (cfg : ThemeConfig) : String × String :=
  let ranked := sortDesc (score_themes text cfg)
  match ranked with
  | [] => ("OTHER", "OTHER")
  | (primary, primary_score) :: rest =>
    if primary_score < cfg.threshold then ("OTHER", "OTHER")
    else if !cfg.allow_multilabel then (primary, primary)
    else
      (primary, String.intercalate "|"
        (pickLoop cfg.max_themes cfg.threshold rest [primary]))

/-- The claim's description of the algorithm (spec §4.3, steps 1–5), stated
independently of the source's accumulation loop: rank by score descending
(stable), return `OTHER` when the top score is under the threshold,
otherwise the primary plus — when multilabel is on — the later-ranked
themes meeting the threshold, in rank order, capped at `max_themes` themes
including the primary. -/
def spec_assign_themes (text : Str) (cfg : ThemeConfig) : String × String :=
  let ranked := sortDesc (score_themes text cfg)
  match ranked with
  | [] => ("OTHER", "OTHER")
  | (primary, primary_score) :: rest =>
    if primary_score < cfg.threshold then ("OTHER", "OTHER")
    else if !cfg.allow_multilabel then (primary, primary)
    else
      (primary, String.intercalate "|"
        (primary ::
          ((rest.filter (fun e => decide (cfg.threshold ≤ e.2))).map
            Prod.fst).take (cfg.max_themes - 1)))

/-- Python `s.strip().lower()` (applied to an already-stringified value). -/
def stripLower (s : Str) : Str :=
  List.map Char.toLower (pyStrip s)

/-- `_make_review_hash` of `src/bank_reviews/db/load.py`: the SHA-256 hex
digest of `"||".join([str(bank).strip().lower(), str(review_text).strip(),
str(review_date), str(rating), str(source).strip().lower()])`, the digest
modelled by its preimage (see the header). `review_date` and `rating` are
taken already stringified, as `str(...)` produces; note the review text is
only stripped — not lowercased, Unicode-normalized, or
whitespace-collapsed. -/
def _make_review_hash (bank review_text review_date rating source : Str) : Str :=
  List.intercalate hashSep
    [stripLower bank, pyStrip review_text, review_date, rating,
     stripLower source]

/-- An input row of the Task-1 clean CSV (`load_task1_clean_csv`): columns
`review, rating, date, bank, source`. `date` and `rating` keep their CSV
string forms (the source's `pd.to_datetime(..., errors="coerce")` only
reformats the value that is later stringified into the hash; it drops no
rows, so it does not affect which rows survive). -/
structure Task1Row where
  review : Str
  rating : Int
  date : Str
  bank : Str
  source : Str
deriving DecidableEq

/-- The `df["review"] = df["review"].astype(str).str.strip()` step of
`load_task1_clean_csv`. -/
def stripReview (r : Task1Row) : Task1Row :=
  { r with review := pyStrip r.review }

/-- The row-dropping step of `load_task1_clean_csv` (`load.py` lines
66–67): strip each review text, keep rows whose stripped text is nonempty.
This is the only per-row validity filter in the base load — every surviving
row is subsequently hashed and offered to the insert. -/
def task1FilteredRows (rows : List Task1Row) : List Task1Row :=
  (rows.map stripReview).filter (fun r => decide (0 < r.review.length))

/-- Insert-or-ignore keyed by `key`: `INSERT ... ON CONFLICT (key) DO
NOTHING` for one row — if a stored row with the same key exists, the store
is unchanged (the existing row is not updated); otherwise the row is
appended. -/
def insertOrIgnore {α κ : Type} [DecidableEq κ] (key : α → κ)
    (store : List α) (x : α) : List α :=
  if store.any (fun y => decide (key y = key x)) then store else store ++ [x]

/-- A batch `INSERT ... ON CONFLICT DO NOTHING`, row by row. -/
def bulkInsert {α κ : Type} [DecidableEq κ] (key : α → κ)
    (store : List α) (rows : List α) : List α :=
  rows.foldl (insertOrIgnore key) store

/-- A stored review row (`reviews` table): the payload columns of
`load_task1_clean_csv` with the unique-keyed `review_hash`. -/
structure ReviewRow where
  bank_id : ℕ
  review_text : Str
  rating : Int
  review_date : Str
  source : Str
  review_hash : Str
deriving DecidableEq

/-- The reviews insert of `load_task1_clean_csv` (`load.py` lines 113–124):
`INSERT INTO reviews ... ON CONFLICT (review_hash) DO NOTHING`. -/
def insertReviews (store rows : List ReviewRow) : List ReviewRow :=
  bulkInsert (fun r => r.review_hash) store rows

/-- A `review_themes` association row, unique on the whole
`(review_id, theme_id)` pair. -/
structure ThemeLink where
  review_id : ℕ
  theme_id : ℕ
deriving DecidableEq

/-- The theme-link insert of `update_from_task2_scored_csv` (`load.py`
lines 246–253): `INSERT INTO review_themes (review_id, theme_id) ... ON
CONFLICT DO NOTHING` against the pair uniqueness constraint. -/
def insertThemeLinks (store links : List ThemeLink) : List ThemeLink :=
  bulkInsert (fun l => (l.review_id, l.theme_id)) store links

/-- An enriched review row as consumed by `theme_summary_by_bank`
(`src/bank_reviews/insights/task4.py`): `bank_name`, `theme_primary`,
`sentiment_label` (the latter two nullable, `fillna`-defaulted to
`"UNKNOWN"`), numeric `rating`. -/
structure EnrichedReview where
  bank_name : String
  theme_primary : Option String
  sentiment_label : Option String
  rating : ℚ
deriving DecidableEq

/-- `df[theme_col].fillna("UNKNOWN")` of `theme_summary_by_bank`. -/
def fillTheme (r : EnrichedReview) : String :=
  r.theme_primary.getD "UNKNOWN"

/-- `df[sent_col].fillna("UNKNOWN")` of `theme_summary_by_bank`. -/
def fillSent (r : EnrichedReview) : String :=
  r.sentiment_label.getD "UNKNOWN"

/-- The `(bank, theme)` group keys of `df.groupby([bank_col, theme_col])`.
Pandas enumerates groups in sorted key order; the claims are
order-independent, so the keys are enumerated without duplicates in
first-appearance order. -/
def summaryKeys (rows : List EnrichedReview) : List (String × String) :=
  (rows.map (fun r => (r.bank_name, fillTheme r))).dedup

/-- The rows of one `(bank, theme)` group. -/
def summaryGroup (rows : List EnrichedReview) (b t : String) :
    List EnrichedReview :=
  rows.filter (fun r => decide (r.bank_name = b ∧ fillTheme r = t))

/-- `df.groupby(bank_col).size()` — the bank's total review count over the
unfiltered population. -/
def bankCount (rows : List EnrichedReview) (b : String) : ℕ :=
  (rows.filter (fun r => decide (r.bank_name = b))).length

/-- One output row of `theme_summary_by_bank`. -/
structure SummaryRow where
  bank_name : String
  theme_primary : String
  n : ℕ
  avg_rating : ℚ
  pct_positive : ℚ
  pct_negative : ℚ
  bank_n : ℕ
  share_within_bank : ℚ
  driver_score : ℚ
  pain_score : ℚ
deriving DecidableEq

/-- The per-group aggregation of `theme_summary_by_bank` (`task4.py` lines
73–83): size, mean rating, POSITIVE/NEGATIVE fractions, bank total and
within-bank share. The score columns are created later (lines 89–92) and
hold `0` until then. -/
def aggRow (rows : List EnrichedReview) (k : String × String) : SummaryRow :=
  let g := summaryGroup rows k.1 k.2
  let n := g.length
  { bank_name := k.1
    theme_primary := k.2
    n := n
    avg_rating := (g.map (fun r => r.rating)).sum / (n : ℚ)
    pct_positive :=
      ((g.filter (fun r => decide (fillSent r = "POSITIVE"))).length : ℚ) / (n : ℚ)
    pct_negative :=
      ((g.filter (fun r => decide (fillSent r = "NEGATIVE"))).length : ℚ) / (n : ℚ)
    bank_n := bankCount rows k.1
    share_within_bank := (n : ℚ) / (bankCount rows k.1 : ℚ)
    driver_score := 0
    pain_score := 0 }

/-- The score columns of `theme_summary_by_bank` (`task4.py` lines 89–92). -/
def addScores (s : SummaryRow) : SummaryRow :=
  { s with
    driver_score := s.pct_positive * s.avg_rating * s.share_within_bank
    pain_score := s.pct_negative * (6 - s.avg_rating) * s.share_within_bank }

/-- `theme_summary_by_bank` of `src/bank_reviews/insights/task4.py`:
aggregate every `(bank, theme)` group, compute within-bank shares against
the unfiltered bank totals, drop groups with `n < min_n`, then add the
driver/pain scores. The source's final `sort_values` only reorders rows
and is omitted (the claims are order-independent). -/
def theme_summary_by_bank (rows : List EnrichedReview) (min_n : ℕ) :
    List SummaryRow :=
  (((summaryKeys rows).map (aggRow rows)).filter
    (fun s => decide (min_n ≤ s.n))).map addScores

/-- An input row of `compute_priority_table`
(`src/bank_reviews/dashboard_gradio/impact.py`): pre-aggregated
per-(bank, theme, sentiment) counts. -/
structure PriorityInputRow where
  bank_name : String
  theme_primary : String
  sentiment_label : String
  n_reviews : ℚ
  avg_rating : ℚ
deriving DecidableEq

/-- An output row of `compute_priority_table`; `Option ℚ` models a pandas
nullable column, `none` being the explicit missing value `pd.NA`. -/
structure PriorityRow where
  bank_name : String
  theme_primary : String
  bt_n : ℚ
  volume_share : Option ℚ
  avg_rating : Option ℚ
  pos_share : Option ℚ
  neg_share : Option ℚ
  driver_score : Option ℚ
  pain_score : Option ℚ
deriving DecidableEq

/-- `x / col.replace(0, pd.NA)`: division whose zero denominator is first
replaced by the missing value, which then propagates. -/
def safeDiv (a b : ℚ) : Option ℚ :=
  if b = 0 then none else some (a / b)

/-- Multiplication of nullable columns: `pd.NA` propagates. -/
def omul : Option ℚ → Option ℚ → Option ℚ
  | some a, some b => some (a * b)
  | _, _ => none

/-- The `(bank_name, theme_primary)` group keys of `compute_priority_table`
(order-independent enumeration, as for `summaryKeys`). -/
def btKeys (df : List PriorityInputRow) : List (String × String) :=
  (df.map (fun r => (r.bank_name, r.theme_primary))).dedup

/-- The rows of one `(bank_name, theme_primary)` group. -/
def btGroup (df : List PriorityInputRow) (b t : String) :
    List PriorityInputRow :=
  df.filter (fun r => decide (r.bank_name = b ∧ r.theme_primary = t))

/-- `bt_n`: the group's total `n_reviews`. -/
def btN (df : List PriorityInputRow) (b t : String) : ℚ :=
  ((btGroup df b t).map (fun r => r.n_reviews)).sum

/-- `bank_n`: the bank's total `n_reviews` (the source sums `bt_n` over the
bank's groups, which is the same partition of the same rows). -/
def bankN (df : List PriorityInputRow) (b : String) : ℚ :=
  ((df.filter (fun r => decide (r.bank_name = b))).map
    (fun r => r.n_reviews)).sum

/-- The group's `rating_x_n` sum (`avg_rating * n_reviews` summed). -/
def ratingXnSum (df : List PriorityInputRow) (b t : String) : ℚ :=
  ((btGroup df b t).map (fun r => r.avg_rating * r.n_reviews)).sum

/-- `n_pos`: the group's `n_reviews` summed over rows whose
`sentiment_label` is exactly `"POSITIVE"` (the source filters the raw
frame, merges `how="left"` and `fillna(0)`s — absent groups sum to 0 here
directly). -/
def posN (df : List PriorityInputRow) (b t : String) : ℚ :=
  (((btGroup df b t).filter
    (fun r => decide (r.sentiment_label = "POSITIVE"))).map
    (fun r => r.n_reviews)).sum

/-- `n_neg`: as `posN`, for the literal label `"NEGATIVE"`. -/
def negN (df : List PriorityInputRow) (b t : String) : ℚ :=
  (((btGroup df b t).filter
    (fun r => decide (r.sentiment_label = "NEGATIVE"))).map
    (fun r => r.n_reviews)).sum

/-- Python `s.strip().lower()` on a Lean `String` (used only by the
dead normalization step of `compute_priority_table`). -/
def stripLowerS (s : String) : String :=
  (stripLower s.toList).asString

/-- Python `s.strip()` on a Lean `String`. -/
def stripS (s : String) : String :=
  (pyStrip s.toList).asString

/-- The output row `compute_priority_table` builds for one group key. -/
def priorityRowOf (df : List PriorityInputRow) (k : String × String) :
    PriorityRow :=
  let btn := btN df k.1 k.2
  let vshare := safeDiv btn (bankN df k.1)
  let avg := safeDiv (ratingXnSum df k.1 k.2) btn
  let pshare := safeDiv (posN df k.1 k.2) btn
  let nshare := safeDiv (negN df k.1 k.2) btn
  { bank_name := k.1
    theme_primary := k.2
    bt_n := btn
    volume_share := vshare
    avg_rating := avg
    pos_share := pshare
    neg_share := nshare
    driver_score := omul (omul pshare avg) vshare
    pain_score := omul (omul nshare (avg.map (fun a => 6 - a))) vshare }

set_option linter.unusedVariables false in
/-- `compute_priority_table` of
`src/bank_reviews/dashboard_gradio/impact.py`. `none` input models the
`theme_df is None` guard. The source first lowercases `sentiment_label`
and strips `theme_primary` on a copy (lines 18–21), then rebinds `df` to a
fresh copy of the original input (line 23), so that normalization is
computed and discarded; every later groupby and filter — including the
`== "POSITIVE"` / `== "NEGATIVE"` ones — runs on the original labels. The
final `sort_values` only reorders rows and is omitted.
(The unused-variable lint is silenced for the dead `dfNormalized` binding,
kept to mirror the source.) -/
def compute_priority_table (input : Option (List PriorityInputRow)) :
    List PriorityRow :=
  match input with
  | none => []
  | some theme_df =>
    if theme_df.isEmpty then []
    else
      let dfNormalized := theme_df.map (fun r =>
        { r with sentiment_label := stripLowerS r.sentiment_label,
                 theme_primary := stripS r.theme_primary })
      let df := theme_df
      (btKeys df).map (priorityRowOf df)

/-- `compute_priority_table` with the discarded normalization step removed
(what the function effectively computes). -/
def compute_priority_table_effective
    (input : Option (List PriorityInputRow)) : List PriorityRow :=
  match input with
  | none => []
  | some theme_df =>
    if theme_df.isEmpty then []
    else (btKeys theme_df).map (priorityRowOf theme_df)

/-- The accumulation loop collects, in order, the first
`max_themes − |acc|` themes of the remaining ranked tail whose score meets
the threshold. -/
theorem pickLoop_eq (maxThemes : ℕ) (threshold : ℚ) :
    ∀ (l : List (String × ℚ)) (acc : List String),
      pickLoop maxThemes threshold l acc =
        acc ++ ((l.filter (fun e => decide (threshold ≤ e.2))).map
          Prod.fst).take (maxThemes - acc.length) := by
  intro l
  induction l with
  | nil => intro acc; simp [pickLoop]
  | cons e rest ih =>
    intro acc
    by_cases h1 : maxThemes ≤ acc.length
    · have h0 : maxThemes - acc.length = 0 := by omega
      simp [pickLoop, if_pos h1, h0]
    · by_cases h2 : threshold ≤ e.2
      · have hrec := ih (acc ++ [e.1])
        obtain ⟨k, hk⟩ : ∃ k, maxThemes - acc.length = k + 1 :=
          ⟨maxThemes - acc.length - 1, by omega⟩
        have hk' : maxThemes - (acc ++ [e.1]).length = k := by
          simp only [List.length_append, List.length_cons, List.length_nil]
          omega
        simp only [pickLoop, if_neg h1, if_pos h2, hrec, hk',
          List.filter_cons, decide_eq_true h2, ite_true, List.map_cons, hk,
          List.take_succ_cons, List.append_assoc, List.cons_append,
          List.nil_append]
      · have h2' : (decide (threshold ≤ e.2)) = false := by
          simpa using h2
        simp [pickLoop, if_neg h1, if_neg h2, ih acc, List.filter_cons, h2']

/-- Membership in `insertDesc`. -/
theorem insertDesc_mem (x : String × ℚ) (l : List (String × ℚ))
    (z : String × ℚ) : z ∈ insertDesc x l ↔ z = x ∨ z ∈ l := by
  induction l with
  | nil => simp [insertDesc]
  | cons y ys ih =>
    by_cases h : y.2 ≤ x.2
    · simp [insertDesc, if_pos h, or_comm, or_assoc, or_left_comm]
    · simp [insertDesc, if_neg h, ih]
      tauto

/-- `insertDesc` preserves descending sortedness. -/
theorem insertDesc_pairwise (x : String × ℚ) (l : List (String × ℚ))
    (hl : l.Pairwise (fun a b => b.2 ≤ a.2)) :
    (insertDesc x l).Pairwise (fun a b => b.2 ≤ a.2) := by
  induction l with
  | nil => simp [insertDesc]
  | cons y ys ih =>
    rcases List.pairwise_cons.1 hl with ⟨hy, hys⟩
    by_cases h : y.2 ≤ x.2
    · rw [insertDesc, if_pos h]
      refine List.pairwise_cons.2 ⟨?_, hl⟩
      intro z hz
      rcases List.mem_cons.1 hz with rfl | hz'
      · exact h
      · exact le_trans (hy z hz') h
    · rw [insertDesc, if_neg h]
      refine List.pairwise_cons.2 ⟨?_, ih hys⟩
      intro z hz
      rcases (insertDesc_mem x ys z).1 hz with rfl | hz'
      · exact le_of_lt (lt_of_not_le h)
      · exact hy z hz'

/-- The ranked list is sorted by score descending. -/
theorem sortDesc_sorted (l : List (String × ℚ)) :
    (sortDesc l).Pairwise (fun a b => b.2 ≤ a.2) := by
  induction l with
  | nil => exact List.Pairwise.nil
  | cons x xs ih => exact insertDesc_pairwise x (sortDesc xs) ih

/-- Filtering on a score: `insertDesc` puts the new element in front of the
equal-scored ones (the elements it passes have strictly larger score). -/
theorem insertDesc_filter (x : String × ℚ) (l : List (String × ℚ)) (s : ℚ) :
    (insertDesc x l).filter (fun e => decide (e.2 = s)) =
      if x.2 = s then x :: l.filter (fun e => decide (e.2 = s))
      else l.filter (fun e => decide (e.2 = s)) := by
  induction l with
  | nil =>
    rw [insertDesc]
    by_cases hx : x.2 = s <;> simp [List.filter_cons, hx]
  | cons y ys ih =>
    by_cases h : y.2 ≤ x.2
    · rw [insertDesc, if_pos h]
      by_cases hx : x.2 = s <;> by_cases hy : y.2 = s <;>
        simp [List.filter_cons, hx, hy]
    · have hlt : x.2 < y.2 := lt_of_not_le h
      rw [insertDesc, if_neg h]
      by_cases hx : x.2 = s
      · have hy : y.2 ≠ s := by
          intro hE
          rw [hE] at hlt
          rw [hx] at hlt
          exact lt_irrefl s hlt
        simp [List.filter_cons, hy, ih, hx]
      · by_cases hy : y.2 = s <;> simp [List.filter_cons, hy, ih, hx]

/-- Stability of the descending sort: for every score value, the
subsequence of entries carrying that score is exactly the one of the input
(equal scores keep their declaration order). -/
theorem sortDesc_stable (l : List (String × ℚ)) (s : ℚ) :
    (sortDesc l).filter (fun e => decide (e.2 = s)) =
      l.filter (fun e => decide (e.2 = s)) := by
  induction l with
  | nil => rfl
  | cons x xs ih =>
    by_cases hx : x.2 = s <;>
      simp [sortDesc, insertDesc_filter, hx, List.filter_cons, ih]

/-- C2: `assign_themes` implements the specified algorithm — scores are the
weighted substring-hit counts (definitionally, via `score_themes`), themes
are ranked descending by a stable sort that keeps lexicon declaration order
among equal scores, a sub-threshold top score yields `OTHER` alone,
multilabel greedily appends later themes meeting the threshold up to
`max_themes` total, and without multilabel the list is exactly the
primary. -/
theorem assign_themes_correct (text : Str) (cfg : ThemeConfig) :
    assign_themes text cfg = spec_assign_themes text cfg ∧
    (sortDesc (score_themes text cfg)).Pairwise (fun a b => b.2 ≤ a.2) ∧
    ∀ s : ℚ, (sortDesc (score_themes text cfg)).filter
        (fun e => decide (e.2 = s)) =
      (score_themes text cfg).filter (fun e => decide (e.2 = s)) := by
  refine ⟨?_, sortDesc_sorted _, fun s => sortDesc_stable _ s⟩
  unfold assign_themes spec_assign_themes
  cases h : sortDesc (score_themes text cfg) with
  | nil => rfl
  | cons hd tl =>
    obtain ⟨primary, pscore⟩ := hd
    simp only
    by_cases h1 : pscore < cfg.threshold
    · simp [if_pos h1]
    · by_cases h2 : cfg.allow_multilabel
      · have := pickLoop_eq cfg.max_themes cfg.threshold tl [primary]
        simp only [List.length_cons, List.length_nil, Nat.zero_add] at this
        simp [if_neg h1, h2, this]
      · simp [if_neg h1, h2]

/-- The five-field `"||".join`, in right-associated form. -/
theorem intercalate_five (a b c d e : Str) :
    List.intercalate hashSep [a, b, c, d, e] =
      a ++ (hashSep ++ (b ++ (hashSep ++ (c ++ (hashSep ++
        (d ++ (hashSep ++ e))))))) := by
  simp [List.intercalate, List.intersperse]

/-- C3 counterexample: two rows equal in bank, source, date, rating and in
§4.1-normalized review text (`normalize_text`), whose store identity hashes
nevertheless differ — `_make_review_hash` only strips the text, so case
(and internal whitespace) differences that normalization erases still
change the digest preimage. -/
theorem review_hash_not_normalization_invariant :
    normalize_text "Good App".toList = normalize_text "good app".toList ∧
    _make_review_hash "CBE".toList "Good App".toList "2024-01-01".toList
        "5".toList "google_play".toList ≠
      _make_review_hash "CBE".toList "good app".toList "2024-01-01".toList
        "5".toList "google_play".toList := by
  constructor <;> decide

/-- C3 (amended): the store identity hash is a pure function of the
case-folded stripped bank, the stripped (raw) review text, the stringified
date, the stringified rating, and the case-folded stripped source — rows
agreeing on those five projections collapse to the same identity,
regardless of ingestion order or source file. -/
theorem review_hash_pure_function
    (b1 t1 d1 r1 s1 b2 t2 d2 r2 s2 : Str)
    (hb : stripLower b1 = stripLower b2) (ht : pyStrip t1 = pyStrip t2)
    (hd : d1 = d2) (hr : r1 = r2) (hs : stripLower s1 = stripLower s2) :
    _make_review_hash b1 t1 d1 r1 s1 = _make_review_hash b2 t2 d2 r2 s2 := by
  unfold _make_review_hash
  rw [hb, ht, hd, hr, hs]

/-- Witness for the amended C3 at concrete rows differing only in field
whitespace and case that the hash's own projections erase. -/
theorem review_hash_pure_function_witness :
    _make_review_hash " CBE ".toList "App crashes often".toList
        "2024-01-01".toList "1".toList "Google_Play".toList =
      _make_review_hash "cbe".toList "App crashes often ".toList
        "2024-01-01".toList "1".toList "google_play".toList :=
  review_hash_pure_function _ _ _ _ _ _ _ _ _ _
    (by decide) (by decide) rfl rfl (by decide)

/-- C4 counterexample: changing the review argument (a genuinely different
string) does not change `make_review_id`, because the argument is
normalized before hashing — the claim's universal "changing any one of the
five arguments changes the result" fails. -/
theorem make_review_id_not_argument_sensitive :
    (" App  crashes often ".toList ≠ "App crashes often".toList) ∧
    make_review_id " App  crashes often ".toList "CBE".toList
        "google_play".toList "2024-01-01".toList "1".toList =
      make_review_id "App crashes often".toList "CBE".toList
        "google_play".toList "2024-01-01".toList "1".toList := by
  constructor <;> decide

/-- C4 (amended): `make_review_id` is deterministic, and changing any one
of the five arguments changes the result (the digest preimage, under the
collision-resistance model) provided the change survives that field's
normalization — `normalize_text` for review/bank/source/date,
`str(...).strip()` for rating. -/
theorem make_review_id_deterministic_and_sensitive :
    (∀ review bank source date rating : Str,
      make_review_id review bank source date rating =
        make_review_id review bank source date rating) ∧
    (∀ bank source date rating t1 t2 : Str,
      normalize_text t1 ≠ normalize_text t2 →
      make_review_id t1 bank source date rating ≠
        make_review_id t2 bank source date rating) ∧
    (∀ review source date rating b1 b2 : Str,
      normalize_text b1 ≠ normalize_text b2 →
      make_review_id review b1 source date rating ≠
        make_review_id review b2 source date rating) ∧
    (∀ review bank date rating s1 s2 : Str,
      normalize_text s1 ≠ normalize_text s2 →
      make_review_id review bank s1 date rating ≠
        make_review_id review bank s2 date rating) ∧
    (∀ review bank source rating d1 d2 : Str,
      normalize_text d1 ≠ normalize_text d2 →
      make_review_id review bank source d1 rating ≠
        make_review_id review bank source d2 rating) ∧
    (∀ review bank source date r1 r2 : Str,
      pyStrip r1 ≠ pyStrip r2 →
      make_review_id review bank source date r1 ≠
        make_review_id review bank source date r2) := by
  refine ⟨fun _ _ _ _ _ => rfl, ?_, ?_, ?_, ?_, ?_⟩
  · intro bank source date rating t1 t2 hne hEq
    apply hne
    unfold make_review_id at hEq
    rw [intercalate_five, intercalate_five] at hEq
    exact List.append_cancel_left (List.append_cancel_left
      (List.append_cancel_left (List.append_cancel_left
        (List.append_cancel_left (List.append_cancel_left
          (List.append_cancel_left (List.append_cancel_left hEq)))))))
  · intro review source date rating b1 b2 hne hEq
    apply hne
    unfold make_review_id at hEq
    rw [intercalate_five, intercalate_five] at hEq
    exact List.append_cancel_right hEq
  · intro review bank date rating s1 s2 hne hEq
    apply hne
    unfold make_review_id at hEq
    rw [intercalate_five, intercalate_five] at hEq
    exact List.append_cancel_right (List.append_cancel_left
      (List.append_cancel_left hEq))
  · intro review bank source rating d1 d2 hne hEq
    apply hne
    unfold make_review_id at hEq
    rw [intercalate_five, intercalate_five] at hEq
    exact List.append_cancel_right (List.append_cancel_left
      (List.append_cancel_left (List.append_cancel_left
        (List.append_cancel_left hEq))))
  · intro review bank source date r1 r2 hne hEq
    apply hne
    unfold make_review_id at hEq
    rw [intercalate_five, intercalate_five] at hEq
    exact List.append_cancel_right (List.append_cancel_left
      (List.append_cancel_left (List.append_cancel_left
        (List.append_cancel_left (List.append_cancel_left
          (List.append_cancel_left hEq))))))

/-- Witness for the amended C4: the spec §8 example — same call twice is
stable, and `"App crashes often"` versus `"App works fine"` (which differ
after normalization) produce different identities. -/
theorem make_review_id_sensitive_witness :
    make_review_id "App crashes often".toList "CBE".toList
        "google_play".toList "2024-01-01".toList "1".toList ≠
      make_review_id "App works fine".toList "CBE".toList
        "google_play".toList "2024-01-01".toList "1".toList :=
  make_review_id_deterministic_and_sensitive.2.1
    "CBE".toList "google_play".toList "2024-01-01".toList "1".toList
    "App crashes often".toList "App works fine".toList (by decide)

/-- Stripping an all-whitespace string yields the empty string. -/
theorem pyStrip_eq_nil_of_all_space (l : Str)
    (h : ∀ c ∈ l, isPySpace c = true) : pyStrip l = [] := by
  unfold pyStrip
  have h1 : l.dropWhile isPySpace = [] :=
    List.dropWhile_eq_nil_iff.2 (fun x hx => h x hx)
  rw [h1]
  rfl

/-- A concrete invalid row: punctuation-only review text, rating 99,
unparseable date. -/
def c5BadRow : Task1Row :=
  { review := "!!!".toList, rating := 99, date := "not-a-date".toList,
    bank := "CBE".toList, source := "google_play".toList }

/-- A concrete whitespace-only-review row. -/
def c5SpaceRow : Task1Row :=
  { review := "   ".toList, rating := 3, date := "2024-01-01".toList,
    bank := "CBE".toList, source := "google_play".toList }

/-- C5 counterexample: a row whose review text is punctuation-only and
whose rating is 99 (outside 1–5, with an unparseable date) survives the
base load's only row filter untouched — it is hashed and offered to the
insert, contradicting "dropped before identity hashing". -/
theorem task1_load_keeps_invalid_row :
    c5BadRow.review.all (fun c => isNonWordNonSpace c) = true ∧
    ¬ (1 ≤ c5BadRow.rating ∧ c5BadRow.rating ≤ 5) ∧
    task1FilteredRows [c5BadRow] = [c5BadRow] := by
  refine ⟨by decide, by decide, by decide⟩

/-- C5 (amended): the base load's only per-row validity filter drops
exactly the rows whose review text is empty after stripping; every
surviving row (nonempty stripped text — including punctuation-only text,
out-of-range ratings and unparseable dates) is hashed and inserted, and a
whitespace-only review never reaches the store. -/
theorem task1_load_row_filter (rows : List Task1Row) :
    (∀ r ∈ task1FilteredRows rows, r.review ≠ []) ∧
    (∀ r : Task1Row, (∀ c ∈ r.review, isPySpace c = true) →
      stripReview r ∉ task1FilteredRows rows) ∧
    (∀ r : Task1Row, r ∈ task1FilteredRows rows ↔
      ∃ r0 ∈ rows, r = stripReview r0 ∧ pyStrip r0.review ≠ []) := by
  have hchar : ∀ r : Task1Row, r ∈ task1FilteredRows rows ↔
      ∃ r0 ∈ rows, r = stripReview r0 ∧ pyStrip r0.review ≠ [] := by
    intro r
    unfold task1FilteredRows
    rw [List.mem_filter, List.mem_map]
    constructor
    · rintro ⟨⟨r0, hr0, rfl⟩, hlen⟩
      refine ⟨r0, hr0, rfl, ?_⟩
      intro hnil
      simp only [stripReview, hnil] at hlen
      exact absurd (of_decide_eq_true hlen) (by simp)
    · rintro ⟨r0, hr0, rfl, hne⟩
      refine ⟨⟨r0, hr0, rfl⟩, ?_⟩
      simp only [stripReview]
      exact decide_eq_true (List.length_pos.2 hne)
  refine ⟨?_, ?_, hchar⟩
  · intro r hr
    rcases (hchar r).1 hr with ⟨r0, _, rfl, hne⟩
    simpa [stripReview] using hne
  · intro r hws hmem
    rcases (hchar _).1 hmem with ⟨r0, _, hEq, hne⟩
    apply hne
    have h1 : (stripReview r).review = [] := by
      simp [stripReview, pyStrip_eq_nil_of_all_space r.review hws]
    calc pyStrip r0.review = (stripReview r0).review := rfl
      _ = (stripReview r).review := by rw [hEq]
      _ = [] := h1

/-- Witness for the amended C5: the whitespace-only row is dropped. -/
theorem task1_load_row_filter_witness :
    stripReview c5SpaceRow ∉ task1FilteredRows [c5SpaceRow] :=
  (task1_load_row_filter [c5SpaceRow]).2.1 c5SpaceRow (by decide)

/-- If a conflicting key is already stored, insert-or-ignore is a no-op
(the stored row is not updated). -/
theorem insertOrIgnore_of_mem {α κ : Type} [DecidableEq κ] (key : α → κ)
    (s : List α) (x : α) (h : key x ∈ s.map key) :
    insertOrIgnore key s x = s := by
  unfold insertOrIgnore
  rw [if_pos]
  rw [List.any_eq_true]
  rcases List.mem_map.1 h with ⟨y, hy, hky⟩
  exact ⟨y, hy, decide_eq_true hky⟩

/-- After insert-or-ignore, the inserted key is present. -/
theorem insertOrIgnore_key_mem {α κ : Type} [DecidableEq κ] (key : α → κ)
    (s : List α) (x : α) : key x ∈ (insertOrIgnore key s x).map key := by
  unfold insertOrIgnore
  split
  · next h =>
    rcases List.any_eq_true.1 h with ⟨y, hy, hky⟩
    exact List.mem_map.2 ⟨y, hy, of_decide_eq_true hky⟩
  · simp

/-- Insert-or-ignore preserves the stored keys. -/
theorem insertOrIgnore_key_mono {α κ : Type} [DecidableEq κ] (key : α → κ)
    (s : List α) (x : α) (a : κ) (h : a ∈ s.map key) :
    a ∈ (insertOrIgnore key s x).map key := by
  unfold insertOrIgnore
  split
  · exact h
  · simp only [List.map_append, List.mem_append]
    exact Or.inl h

/-- Bulk insert preserves the stored keys. -/
theorem bulkInsert_key_mono {α κ : Type} [DecidableEq κ] (key : α → κ)
    (rows : List α) : ∀ (s : List α) (a : κ), a ∈ s.map key →
      a ∈ (bulkInsert key s rows).map key := by
  induction rows with
  | nil => intro s a h; exact h
  | cons x xs ih =>
    intro s a h
    exact ih (insertOrIgnore key s x) a (insertOrIgnore_key_mono key s x a h)

/-- After a bulk insert, every inserted row's key is present. -/
theorem bulkInsert_key_mem {α κ : Type} [DecidableEq κ] (key : α → κ)
    (rows : List α) : ∀ (s : List α) (x : α), x ∈ rows →
      key x ∈ (bulkInsert key s rows).map key := by
  induction rows with
  | nil => intro s x h; exact absurd h (List.not_mem_nil x)
  | cons y ys ih =>
    intro s x hx
    rcases List.mem_cons.1 hx with rfl | hx'
    · exact bulkInsert_key_mono key ys (insertOrIgnore key s x) (key x)
        (insertOrIgnore_key_mem key s x)
    · exact ih (insertOrIgnore key s y) x hx'

/-- A bulk insert whose keys are all already stored is a no-op. -/
theorem bulkInsert_of_keys_mem {α κ : Type} [DecidableEq κ] (key : α → κ)
    (rows : List α) : ∀ s : List α, (∀ x ∈ rows, key x ∈ s.map key) →
      bulkInsert key s rows = s := by
  induction rows with
  | nil => intro s _; rfl
  | cons y ys ih =>
    intro s h
    have h1 : insertOrIgnore key s y = s :=
      insertOrIgnore_of_mem key s y (h y (List.mem_cons_self y ys))
    show bulkInsert key (insertOrIgnore key s y) ys = s
    rw [h1]
    exact ih s (fun x hx => h x (List.mem_cons_of_mem y hx))

/-- Replaying an identical bulk insert-or-ignore leaves the store
unchanged. -/
theorem bulkInsert_idem {α κ : Type} [DecidableEq κ] (key : α → κ)
    (s rows : List α) :
    bulkInsert key (bulkInsert key s rows) rows = bulkInsert key s rows :=
  bulkInsert_of_keys_mem key rows (bulkInsert key s rows)
    (fun x hx => bulkInsert_key_mem key rows s x hx)

/-- C6: both load phases are idempotent on store contents — re-running the
reviews insert (`ON CONFLICT (review_hash) DO NOTHING`) with the same rows
leaves the store, hence the total review count, unchanged, and re-running
the review-theme link insert (`ON CONFLICT DO NOTHING` on the pair) leaves
the association set, hence its count, unchanged. -/
theorem load_phases_idempotent (store rows : List ReviewRow)
    (linkStore links : List ThemeLink) :
    insertReviews (insertReviews store rows) rows =
      insertReviews store rows ∧
    (insertReviews (insertReviews store rows) rows).length =
      (insertReviews store rows).length ∧
    insertThemeLinks (insertThemeLinks linkStore links) links =
      insertThemeLinks linkStore links ∧
    (insertThemeLinks (insertThemeLinks linkStore links) links).length =
      (insertThemeLinks linkStore links).length := by
  have h1 := bulkInsert_idem (fun r : ReviewRow => r.review_hash) store rows
  have h2 := bulkInsert_idem
    (fun l : ThemeLink => (l.review_id, l.theme_id)) linkStore links
  exact ⟨h1, by rw [show insertReviews (insertReviews store rows) rows =
      insertReviews store rows from h1], h2,
    by rw [show insertThemeLinks (insertThemeLinks linkStore links) links =
      insertThemeLinks linkStore links from h2]⟩

/-- C7: `theme_summary_by_bank` keeps exactly the `(bank, theme)` groups of
size at least `min_n` (smaller groups are absent from the output, not
present with degenerate scores), and every surviving row's
`share_within_bank` divides by the bank's unfiltered total, with
`driver_score = pct_positive × avg_rating × share_within_bank` and
`pain_score = pct_negative × (6 − avg_rating) × share_within_bank`. -/
theorem theme_summary_by_bank_correct (rows : List EnrichedReview)
    (min_n : ℕ) :
    (∀ s ∈ theme_summary_by_bank rows min_n,
      min_n ≤ s.n ∧
      s.n = (summaryGroup rows s.bank_name s.theme_primary).length ∧
      s.bank_n = bankCount rows s.bank_name ∧
      s.share_within_bank = (s.n : ℚ) / (bankCount rows s.bank_name : ℚ) ∧
      s.driver_score = s.pct_positive * s.avg_rating * s.share_within_bank ∧
      s.pain_score =
        s.pct_negative * (6 - s.avg_rating) * s.share_within_bank) ∧
    (∀ b t : String, (summaryGroup rows b t).length < min_n →
      ∀ s ∈ theme_summary_by_bank rows min_n,
        ¬ (s.bank_name = b ∧ s.theme_primary = t)) := by
  have main : ∀ s ∈ theme_summary_by_bank rows min_n,
      min_n ≤ s.n ∧
      s.n = (summaryGroup rows s.bank_name s.theme_primary).length ∧
      s.bank_n = bankCount rows s.bank_name ∧
      s.share_within_bank = (s.n : ℚ) / (bankCount rows s.bank_name : ℚ) ∧
      s.driver_score = s.pct_positive * s.avg_rating * s.share_within_bank ∧
      s.pain_score =
        s.pct_negative * (6 - s.avg_rating) * s.share_within_bank := by
    intro s hs
    unfold theme_summary_by_bank at hs
    rcases List.mem_map.1 hs with ⟨s0, hs0, rfl⟩
    rcases List.mem_filter.1 hs0 with ⟨hs1, hn⟩
    rcases List.mem_map.1 hs1 with ⟨k, _, rfl⟩
    exact ⟨of_decide_eq_true hn, rfl, rfl, rfl, rfl, rfl⟩
  refine ⟨main, ?_⟩
  rintro b t hlt s hs ⟨hb, ht⟩
  have h := main s hs
  have h2 := h.2.1
  rw [hb, ht] at h2
  have h1 := h.1
  omega

/-- Concrete input for the C7 witness. -/
def c7Rows : List EnrichedReview :=
  [{ bank_name := "CBE", theme_primary := some "UX_UI",
     sentiment_label := some "POSITIVE", rating := 5 }]

/-- The single output row `theme_summary_by_bank c7Rows 1` produces. -/
def c7Out : SummaryRow :=
  addScores (aggRow c7Rows ("CBE", "UX_UI"))

/-- Witness for C7 at a concrete input. -/
theorem theme_summary_by_bank_correct_witness :
    1 ≤ c7Out.n ∧
    c7Out.share_within_bank = (c7Out.n : ℚ) / (bankCount c7Rows "CBE" : ℚ) ∧
    c7Out.driver_score =
      c7Out.pct_positive * c7Out.avg_rating * c7Out.share_within_bank := by
  have hmem : c7Out ∈ theme_summary_by_bank c7Rows 1 := by
    unfold theme_summary_by_bank
    have hkeys : summaryKeys c7Rows = [("CBE", "UX_UI")] := by
      simp [summaryKeys, c7Rows, fillTheme]
    rw [hkeys]
    simp only [List.map_cons, List.map_nil]
    rw [List.filter_cons]
    have hc : decide (1 ≤ (aggRow c7Rows ("CBE", "UX_UI")).n) = true := by
      decide
    rw [hc]
    simp only [ite_true, List.filter_nil, List.map_cons, List.map_nil]
    exact List.mem_singleton.2 rfl
  have h := (theme_summary_by_bank_correct c7Rows 1).1 c7Out hmem
  refine ⟨h.1, ?_, h.2.2.2.2.1⟩
  have hb : c7Out.bank_name = "CBE" := rfl
  have hshare := h.2.2.2.1
  rwa [hb] at hshare

/-- A zero denominator yields the explicit missing value. -/
theorem safeDiv_zero (a : ℚ) : safeDiv a 0 = none := by
  unfold safeDiv
  simp

/-- `pd.NA` propagates through products (right factor). -/
theorem omul_none_right (x : Option ℚ) : omul x none = none := by
  cases x <;> rfl

/-- `pd.NA` propagates through products (left factor). -/
theorem omul_none_left (y : Option ℚ) : omul none y = none := by
  cases y <;> rfl

/-- C8: the coarse priority computation is total on degenerate input — a
`None` or empty frame yields an empty result, a zero bank total makes
`volume_share` (and both scores) the explicit missing value, and a zero
group total makes `avg_rating`, `pos_share`, `neg_share` and both scores
missing, rather than raising or producing an error-propagating value. -/
theorem compute_priority_table_degenerate :
    compute_priority_table none = [] ∧
    compute_priority_table (some []) = [] ∧
    ∀ rows : List PriorityInputRow,
      ∀ o ∈ compute_priority_table (some rows),
        (bankN rows o.bank_name = 0 →
          o.volume_share = none ∧ o.driver_score = none ∧
            o.pain_score = none) ∧
        (o.bt_n = 0 →
          o.avg_rating = none ∧ o.pos_share = none ∧ o.neg_share = none ∧
            o.driver_score = none ∧ o.pain_score = none) := by
  refine ⟨rfl, rfl, ?_⟩
  intro rows o ho
  simp only [compute_priority_table] at ho
  split at ho
  · exact absurd ho (List.not_mem_nil o)
  · rcases List.mem_map.1 ho with ⟨k, _, rfl⟩
    constructor
    · intro hbz
      have hbz' : bankN rows k.1 = 0 := hbz
      have hv : (priorityRowOf rows k).volume_share = none := by
        show safeDiv (btN rows k.1 k.2) (bankN rows k.1) = none
        rw [hbz']
        exact safeDiv_zero _
      refine ⟨hv, ?_, ?_⟩
      · show omul (omul _ _) ((priorityRowOf rows k).volume_share) = none
        rw [hv]
        exact omul_none_right _
      · show omul (omul _ _) ((priorityRowOf rows k).volume_share) = none
        rw [hv]
        exact omul_none_right _
    · intro hbt
      have hbt' : btN rows k.1 k.2 = 0 := hbt
      have ha : (priorityRowOf rows k).avg_rating = none := by
        show safeDiv (ratingXnSum rows k.1 k.2) (btN rows k.1 k.2) = none
        rw [hbt']
        exact safeDiv_zero _
      have hp : (priorityRowOf rows k).pos_share = none := by
        show safeDiv (posN rows k.1 k.2) (btN rows k.1 k.2) = none
        rw [hbt']
        exact safeDiv_zero _
      have hn : (priorityRowOf rows k).neg_share = none := by
        show safeDiv (negN rows k.1 k.2) (btN rows k.1 k.2) = none
        rw [hbt']
        exact safeDiv_zero _
      refine ⟨ha, hp, hn, ?_, ?_⟩
      · show omul (omul ((priorityRowOf rows k).pos_share) _) _ = none
        rw [hp, omul_none_left]
        exact omul_none_left _
      · show omul (omul ((priorityRowOf rows k).neg_share) _) _ = none
        rw [hn, omul_none_left]
        exact omul_none_left _

/-- Concrete zero-denominator input for the C8 witness. -/
def c8Rows : List PriorityInputRow :=
  [{ bank_name := "B", theme_primary := "T", sentiment_label := "POSITIVE",
     n_reviews := 0, avg_rating := 5 }]

/-- Witness for C8: with a zero `n_reviews` total, every share and score of
the produced row is the explicit missing value. -/
theorem compute_priority_table_degenerate_witness :
    (priorityRowOf c8Rows ("B", "T")).volume_share = none ∧
    (priorityRowOf c8Rows ("B", "T")).avg_rating = none ∧
    (priorityRowOf c8Rows ("B", "T")).pos_share = none ∧
    (priorityRowOf c8Rows ("B", "T")).driver_score = none ∧
    (priorityRowOf c8Rows ("B", "T")).pain_score = none := by
  have hmem : priorityRowOf c8Rows ("B", "T") ∈
      compute_priority_table (some c8Rows) := by
    simp only [compute_priority_table]
    rw [if_neg (by decide)]
    have hkeys : btKeys c8Rows = [("B", "T")] := by
      simp [btKeys, c8Rows]
    rw [hkeys]
    simp only [List.map_cons, List.map_nil]
    exact List.mem_singleton.2 rfl
  have h := compute_priority_table_degenerate.2.2 c8Rows
    (priorityRowOf c8Rows ("B", "T")) hmem
  have hbank : bankN c8Rows ((priorityRowOf c8Rows ("B", "T")).bank_name) = 0 := by
    show bankN c8Rows "B" = 0
    simp [bankN, c8Rows]
  have hbt : (priorityRowOf c8Rows ("B", "T")).bt_n = 0 := by
    show btN c8Rows "B" "T" = 0
    simp [btN, btGroup, c8Rows]
  have hA := h.1 hbank
  have hB := h.2 hbt
  exact ⟨hA.1, hB.1, hB.2.1, hA.2.1, hA.2.2⟩

/-- Concrete uppercase-labelled input for the C9 counterexample. -/
def c9RowsU : List PriorityInputRow :=
  [{ bank_name := "B", theme_primary := "T", sentiment_label := "POSITIVE",
     n_reviews := 4, avg_rating := 5 }]

/-- Concrete lowercase-labelled input for the C9 witness. -/
def c9RowsL : List PriorityInputRow :=
  [{ bank_name := "B", theme_primary := "T", sentiment_label := "positive",
     n_reviews := 4, avg_rating := 5 }]

/-- C9 counterexample: on an input whose single row is labelled
`"POSITIVE"`, `compute_priority_table` reports `pos_share = 1` — not the
`pos_share = 0` (`safeDiv 0 …`) that "the positive counts are computed as
if no row were positive" would give. The lowercase normalization is
computed but discarded by the re-copy of the original input
(`impact.py` line 23), so the uppercase filters do match. -/
theorem priority_positive_filter_matches :
    (compute_priority_table (some c9RowsU)).map (fun o => o.pos_share) =
      [some 1] ∧
    safeDiv 0 (btN c9RowsU "B" "T") = some 0 ∧
    some (1 : ℚ) ≠ some (0 : ℚ) := by
  have htab : compute_priority_table (some c9RowsU) =
      [priorityRowOf c9RowsU ("B", "T")] := by
    simp only [compute_priority_table]
    rw [if_neg (by decide)]
    have hkeys : btKeys c9RowsU = [("B", "T")] := by
      simp [btKeys, c9RowsU]
    rw [hkeys]
    simp only [List.map_cons, List.map_nil]
  have hbt : btN c9RowsU "B" "T" = 4 := by
    simp [btN, btGroup, c9RowsU]
  have hpos : posN c9RowsU "B" "T" = 4 := by
    simp [posN, btGroup, c9RowsU]
  refine ⟨?_, ?_, by norm_num⟩
  · rw [htab]
    simp only [List.map_cons, List.map_nil]
    have : (priorityRowOf c9RowsU ("B", "T")).pos_share =
        safeDiv (posN c9RowsU "B" "T") (btN c9RowsU "B" "T") := rfl
    rw [this, hpos, hbt]
    norm_num [safeDiv]
  · rw [hbt]
    norm_num [safeDiv]

/-- C9 (amended): the lowercase normalization of `sentiment_label` /
`theme_primary` is dead code — the function immediately re-copies the
original input (`impact.py` line 23), so it behaves exactly like the same
pipeline with no normalization step, and the `== "POSITIVE"` /
`== "NEGATIVE"` filters compare the *original* labels: rows labelled
exactly uppercase are counted, while rows in any other casing are silently
not counted. -/
theorem priority_normalization_discarded :
    (∀ input, compute_priority_table input =
      compute_priority_table_effective input) ∧
    (∀ rows : List PriorityInputRow,
      ∀ o ∈ compute_priority_table (some rows),
        o.pos_share = safeDiv (posN rows o.bank_name o.theme_primary)
          (btN rows o.bank_name o.theme_primary) ∧
        o.neg_share = safeDiv (negN rows o.bank_name o.theme_primary)
          (btN rows o.bank_name o.theme_primary)) := by
  constructor
  · intro input
    cases input <;> rfl
  · intro rows o ho
    simp only [compute_priority_table] at ho
    split at ho
    · exact absurd ho (List.not_mem_nil o)
    · rcases List.mem_map.1 ho with ⟨k, _, rfl⟩
      exact ⟨rfl, rfl⟩

/-- Witness for the amended C9: a lowercase-labelled row is not matched by
the uppercase filter — its group's `pos_share` is `0`, not `1`. -/
theorem priority_normalization_discarded_witness :
    (priorityRowOf c9RowsL ("B", "T")).pos_share =
      safeDiv (posN c9RowsL "B" "T") (btN c9RowsL "B" "T") ∧
    safeDiv (posN c9RowsL "B" "T") (btN c9RowsL "B" "T") = some 0 := by
  have hmem : priorityRowOf c9RowsL ("B", "T") ∈
      compute_priority_table (some c9RowsL) := by
    simp only [compute_priority_table]
    rw [if_neg (by decide)]
    have hkeys : btKeys c9RowsL = [("B", "T")] := by
      simp [btKeys, c9RowsL]
    rw [hkeys]
    simp only [List.map_cons, List.map_nil]
    exact List.mem_singleton.2 rfl
  have h := (priority_normalization_discarded.2 c9RowsL
    (priorityRowOf c9RowsL ("B", "T")) hmem).1
  refine ⟨h, ?_⟩
  have hbt : btN c9RowsL "B" "T" = 4 := by
    simp [btN, btGroup, c9RowsL]
  have hpos : posN c9RowsL "B" "T" = 0 := by
    simp [posN, btGroup, c9RowsL]
  rw [hbt, hpos]
  norm_num [safeDiv]

/-- `Char.ofNat` at a valid (below-surrogate) code point round-trips. -/
theorem char_toNat_ofNat {n : ℕ} (h : n < 55296) :
    (Char.ofNat n).toNat = n := by
  have hv : n.isValidChar := Or.inl h
  rw [Char.ofNat, dif_pos hv]
  simp [Char.ofNatAux, Char.toNat, UInt32.toNat]

/-- `Char.toLower` either shifts an upper-case ASCII letter down by 32 or
leaves the character unchanged. -/
theorem toLower_cases (c : Char) :
    (65 ≤ c.toNat ∧ c.toNat ≤ 90 ∧
      (Char.toLower c).toNat = c.toNat + 32) ∨ Char.toLower c = c := by
  unfold Char.toLower
  by_cases h : c.toNat ≥ 65 ∧ c.toNat ≤ 90
  · rw [if_pos h]
    exact Or.inl ⟨h.1, h.2, char_toNat_ofNat (by omega)⟩
  · rw [if_neg h]
    exact Or.inr rfl


/-- Lower-casing is idempotent. -/
theorem toLower_idem (c : Char) :
    Char.toLower (Char.toLower c) = Char.toLower c := by
  rcases toLower_cases c with ⟨h65, h90, ht⟩ | h
  · rcases toLower_cases (Char.toLower c) with ⟨h65', h90', _⟩ | h'
    · rw [ht] at h90'
      omega
    · exact h'
  · rw [h, h]

/-- Lower-casing preserves whitespace-ness. -/
theorem isPySpace_toLower (c : Char) :
    isPySpace (Char.toLower c) = isPySpace c := by
  rcases toLower_cases c with ⟨h65, h90, ht⟩ | h
  · have hL : isPySpace (Char.toLower c) = false := by
      simp only [isPySpace, ht, Bool.or_eq_false_iff,
        decide_eq_false_iff_not]
      omega
    have hR : isPySpace c = false := by
      simp only [isPySpace, Bool.or_eq_false_iff, decide_eq_false_iff_not]
      omega
    rw [hL, hR]
  · rw [h]

/-- Lower-casing maps only the zero-width space to the zero-width space. -/
theorem toLower_zwsp (c : Char) (h : (Char.toLower c).toNat = 8203) :
    c.toNat = 8203 := by
  rcases toLower_cases c with ⟨h65, h90, ht⟩ | hc
  · rw [ht] at h
    omega
  · rwa [hc] at h

/-- Equation: the replacer skips a run character while inside a run. -/
theorem subRunsAux_cons_pos_true (p : Char → Bool) (r : Char) {a : Char}
    (as : Str) (h : p a = true) :
    subRunsAux p r true (a :: as) = subRunsAux p r true as := by
  simp [subRunsAux, h]

/-- Equation: the replacer emits the replacement on entering a run. -/
theorem subRunsAux_cons_pos_false (p : Char → Bool) (r : Char) {a : Char}
    (as : Str) (h : p a = true) :
    subRunsAux p r false (a :: as) = r :: subRunsAux p r true as := by
  simp [subRunsAux, h]

/-- Equation: the replacer copies a non-run character and leaves run
state. -/
theorem subRunsAux_cons_neg (p : Char → Bool) (r : Char) (b : Bool)
    {a : Char} (as : Str) (h : p a = false) :
    subRunsAux p r b (a :: as) = a :: subRunsAux p r false as := by
  cases b <;> simp [subRunsAux, h]

/-- Every character the run-replacer emits is the replacement or came from
the input. -/
theorem mem_subRunsAux {p : Char → Bool} {r : Char} :
    ∀ {l : Str} {b : Bool} {c : Char},
      c ∈ subRunsAux p r b l → c = r ∨ c ∈ l := by
  intro l
  induction l with
  | nil => intro b c h; exact absurd h (by simp [subRunsAux])
  | cons a as ih =>
    intro b c h
    cases hpa : p a with
    | true =>
      cases b with
      | false =>
        rw [subRunsAux_cons_pos_false p r as hpa] at h
        rcases List.mem_cons.1 h with rfl | h'
        · exact Or.inl rfl
        · rcases ih h' with hr | hmem
          · exact Or.inl hr
          · exact Or.inr (List.mem_cons_of_mem a hmem)
      | true =>
        rw [subRunsAux_cons_pos_true p r as hpa] at h
        rcases ih h with hr | hmem
        · exact Or.inl hr
        · exact Or.inr (List.mem_cons_of_mem a hmem)
    | false =>
      rw [subRunsAux_cons_neg p r b as hpa] at h
      rcases List.mem_cons.1 h with rfl | h'
      · exact Or.inr (List.mem_cons_self c as)
      · rcases ih h' with hr | hmem
        · exact Or.inl hr
        · exact Or.inr (List.mem_cons_of_mem a hmem)

/-- In run-skipping state the replacer's output never starts with a run
character. -/
theorem head?_subRunsAux_true {p : Char → Bool} {r : Char} :
    ∀ (l : Str) (c : Char),
      (subRunsAux p r true l).head? = some c → p c = false := by
  intro l
  induction l with
  | nil => intro c h; simp [subRunsAux] at h
  | cons a as ih =>
    intro c h
    cases hpa : p a with
    | true =>
      rw [subRunsAux_cons_pos_true p r as hpa] at h
      exact ih c h
    | false =>
      rw [subRunsAux_cons_neg p r true as hpa] at h
      simp only [List.head?_cons, Option.some.injEq] at h
      rw [← h]
      exact hpa

/-- On input with a non-run head, the two replacer states agree. -/
theorem subRunsAux_true_eq_false {p : Char → Bool} {r : Char} (l : Str)
    (h : ∀ c, l.head? = some c → p c = false) :
    subRunsAux p r true l = subRunsAux p r false l := by
  cases l with
  | nil => rfl
  | cons a as =>
    have hpa : p a = false := h a rfl
    rw [subRunsAux_cons_neg p r true as hpa,
      subRunsAux_cons_neg p r false as hpa]

/-- Re-running the run-replacer changes nothing (the replacement character
is itself a run character, and emitted replacements are isolated). -/
theorem subRunsAux_idem {p : Char → Bool} {r : Char} (hpr : p r = true) :
    ∀ (l : Str) (b : Bool),
      subRunsAux p r false (subRunsAux p r b l) = subRunsAux p r b l := by
  intro l
  induction l with
  | nil => intro b; rfl
  | cons a as ih =>
    intro b
    cases hpa : p a with
    | true =>
      cases b with
      | true =>
        rw [subRunsAux_cons_pos_true p r as hpa]
        exact ih true
      | false =>
        rw [subRunsAux_cons_pos_false p r as hpa,
          subRunsAux_cons_pos_false p r (subRunsAux p r true as) hpr,
          subRunsAux_true_eq_false _ (head?_subRunsAux_true as), ih true]
    | false =>
      rw [subRunsAux_cons_neg p r b as hpa,
        subRunsAux_cons_neg p r false (subRunsAux p r false as) hpa,
        ih false]

/-- The replacer's output is nonempty when some input character is not a
run character. -/
theorem subRunsAux_ne_nil {p : Char → Bool} {r : Char} :
    ∀ (l : Str) (b : Bool), (∃ c ∈ l, p c = false) →
      subRunsAux p r b l ≠ [] := by
  intro l
  induction l with
  | nil => intro b h; rcases h with ⟨c, hc, _⟩; exact absurd hc (by simp)
  | cons a as ih =>
    intro b h
    rcases h with ⟨c, hc, hpc⟩
    cases hpa : p a with
    | false =>
      rw [subRunsAux_cons_neg p r b as hpa]
      exact List.cons_ne_nil a _
    | true =>
      have hcas : c ∈ as := by
        rcases List.mem_cons.1 hc with rfl | h'
        · rw [hpa] at hpc; exact absurd hpc (by simp)
        · exact h'
      cases b with
      | false =>
        rw [subRunsAux_cons_pos_false p r as hpa]
        exact List.cons_ne_nil r _
      | true =>
        rw [subRunsAux_cons_pos_true p r as hpa]
        exact ih true ⟨c, hcas, hpc⟩

/-- If the input does not end in a run character, neither does the
replacer's output. -/
theorem getLast?_subRunsAux {p : Char → Bool} {r : Char} :
    ∀ (l : Str) (b : Bool),
      (∀ c, l.getLast? = some c → p c = false) →
      ∀ c, (subRunsAux p r b l).getLast? = some c → p c = false := by
  intro l
  induction l with
  | nil => intro b _ c hc; simp [subRunsAux] at hc
  | cons a as ih =>
    intro b h c hc
    by_cases hase : as = []
    · subst hase
      have hpa : p a = false := h a (by simp)
      rw [subRunsAux_cons_neg p r b [] hpa] at hc
      simp only [subRunsAux] at hc
      simp only [List.getLast?_cons, List.getLast?_nil, Option.getD_none,
        Option.some.injEq] at hc
      rw [← hc]
      exact hpa
    · have htail : ∀ c, as.getLast? = some c → p c = false := by
        intro c' hc'
        apply h
        rw [List.getLast?_cons, hc']
        rfl
      obtain ⟨d, hd⟩ : ∃ d, as.getLast? = some d := by
        rcases hx : as.getLast? with _ | d
        · exact absurd (List.getLast?_eq_none_iff.1 hx) hase
        · exact ⟨d, rfl⟩
      have hdp : p d = false := htail d hd
      have hdm : d ∈ as := List.mem_of_getLast?_eq_some hd
      have hne : ∀ b', subRunsAux p r b' as ≠ [] :=
        fun b' => subRunsAux_ne_nil as b' ⟨d, hdm, hdp⟩
      cases hpa : p a with
      | false =>
        rw [subRunsAux_cons_neg p r b as hpa] at hc
        obtain ⟨e, he⟩ : ∃ e, (subRunsAux p r false as).getLast? = some e := by
          rcases hx : (subRunsAux p r false as).getLast? with _ | e
          · exact absurd (List.getLast?_eq_none_iff.1 hx) (hne false)
          · exact ⟨e, rfl⟩
        rw [List.getLast?_cons, he] at hc
        simp only [Option.getD_some, Option.some.injEq] at hc
        rw [← hc]
        exact ih false htail e he
      | true =>
        have hkey : ∀ c, (subRunsAux p r true as).getLast? = some c →
            p c = false := ih true htail
        cases b with
        | true =>
          rw [subRunsAux_cons_pos_true p r as hpa] at hc
          exact hkey c hc
        | false =>
          rw [subRunsAux_cons_pos_false p r as hpa] at hc
          obtain ⟨e, he⟩ : ∃ e, (subRunsAux p r true as).getLast? = some e := by
            rcases hx : (subRunsAux p r true as).getLast? with _ | e
            · exact absurd (List.getLast?_eq_none_iff.1 hx) (hne true)
            · exact ⟨e, rfl⟩
          rw [List.getLast?_cons, he] at hc
          simp only [Option.getD_some, Option.some.injEq] at hc
          rw [← hc]
          exact hkey e he

/-- `dropWhile` never leaves a satisfying character at the head. -/
theorem head?_dropWhile_not {p : Char → Bool} :
    ∀ (l : Str) (c : Char), (l.dropWhile p).head? = some c → p c = false := by
  intro l
  induction l with
  | nil => intro c h; simp at h
  | cons a as ih =>
    intro c h
    cases hpa : p a with
    | true =>
      rw [List.dropWhile_cons, if_pos hpa] at h
      exact ih c h
    | false =>
      rw [List.dropWhile_cons, if_neg (by simp [hpa])] at h
      simp only [List.head?_cons, Option.some.injEq] at h
      rw [← h]
      exact hpa

/-- A stripped string does not start with whitespace. -/
theorem pyStrip_head_not (s : Str) :
    ∀ c, (pyStrip s).head? = some c → isPySpace c = false := by
  intro c hc
  unfold pyStrip at hc
  rw [List.head?_reverse] at hc
  obtain ⟨pre, hpre⟩ :=
    List.dropWhile_suffix (l := (s.dropWhile isPySpace).reverse)
      (p := isPySpace)
  have hne : ((s.dropWhile isPySpace).reverse.dropWhile isPySpace) ≠ [] := by
    intro hnil
    rw [hnil] at hc
    simp at hc
  have h2 : ((s.dropWhile isPySpace).reverse).getLast? = some c := by
    rw [← hpre, List.getLast?_append_of_ne_nil _ hne, hc]
  rw [List.getLast?_reverse] at h2
  exact head?_dropWhile_not s c h2

/-- A stripped string does not end with whitespace. -/
theorem pyStrip_getLast_not (s : Str) :
    ∀ c, (pyStrip s).getLast? = some c → isPySpace c = false := by
  intro c hc
  unfold pyStrip at hc
  rw [List.getLast?_reverse] at hc
  exact head?_dropWhile_not _ c hc

/-- `dropWhile` is the identity when the head does not satisfy the
predicate. -/
theorem dropWhile_eq_self_of_head {p : Char → Bool} (l : Str)
    (h : ∀ c, l.head? = some c → p c = false) : l.dropWhile p = l := by
  cases l with
  | nil => rfl
  | cons a as =>
    rw [List.dropWhile_cons, if_neg]
    simp [h a rfl]

/-- Stripping is the identity on strings with no whitespace at either
end. -/
theorem pyStrip_eq_self (l : Str)
    (h1 : ∀ c, l.head? = some c → isPySpace c = false)
    (h2 : ∀ c, l.getLast? = some c → isPySpace c = false) :
    pyStrip l = l := by
  unfold pyStrip
  rw [dropWhile_eq_self_of_head l h1]
  rw [dropWhile_eq_self_of_head l.reverse
    (fun c hc => h2 c (by rwa [List.head?_reverse] at hc))]
  exact List.reverse_reverse l

/-- Stripping only removes characters. -/
theorem mem_pyStrip {c : Char} {l : Str} (h : c ∈ pyStrip l) : c ∈ l := by
  unfold pyStrip at h
  rw [List.mem_reverse] at h
  have h1 := (List.dropWhile_sublist
    (l := (l.dropWhile isPySpace).reverse) isPySpace).subset h
  rw [List.mem_reverse] at h1
  exact (List.dropWhile_sublist (l := l) isPySpace).subset h1

/-- A map that fixes every member is the identity. -/
theorem map_eq_self_of {f : Char → Char} :
    ∀ l : Str, (∀ c ∈ l, f c = c) → l.map f = l := by
  intro l
  induction l with
  | nil => intro _; rfl
  | cons a as ih =>
    intro h
    rw [List.map_cons, h a (List.mem_cons_self a as),
      ih (fun c hc => h c (List.mem_cons_of_mem a hc))]

/-- The run-replacer keeps a non-run head. -/
theorem head?_subRuns_of {p : Char → Bool} {r : Char} (l : Str)
    (h : ∀ c, l.head? = some c → p c = false) :
    ∀ c, (subRuns p r l).head? = some c → p c = false := by
  cases l with
  | nil => intro c hc; simp [subRuns, subRunsAux] at hc
  | cons a as =>
    intro c hc
    have hpa : p a = false := h a rfl
    rw [subRuns, subRunsAux_cons_neg p r false as hpa] at hc
    simp only [List.head?_cons, Option.some.injEq] at hc
    rw [← hc]
    exact hpa

/-- C10: `normalize_text` is idempotent — normalizing already-normalized
text changes nothing, so identity hashing and matching are insensitive to
how many times a text passes through normalization. -/
theorem normalize_text_idempotent (s : Str) :
    normalize_text (normalize_text s) = normalize_text s := by
  have hv_head : ∀ c,
      (List.map Char.toLower (pyStrip (removeZWSP s))).head? = some c →
        isPySpace c = false := by
    intro c hc
    rw [List.head?_map] at hc
    rcases hx : (pyStrip (removeZWSP s)).head? with _ | d
    · rw [hx] at hc; exact absurd hc (by simp)
    · rw [hx] at hc
      have hdc : Char.toLower d = c := by simpa using hc
      rw [← hdc, isPySpace_toLower]
      exact pyStrip_head_not (removeZWSP s) d hx
  have hv_last : ∀ c,
      (List.map Char.toLower (pyStrip (removeZWSP s))).getLast? = some c →
        isPySpace c = false := by
    intro c hc
    rw [List.getLast?_map] at hc
    rcases hx : (pyStrip (removeZWSP s)).getLast? with _ | d
    · rw [hx] at hc; exact absurd hc (by simp)
    · rw [hx] at hc
      have hdc : Char.toLower d = c := by simpa using hc
      rw [← hdc, isPySpace_toLower]
      exact pyStrip_getLast_not (removeZWSP s) d hx
  have hhead_t : ∀ c, (normalize_text s).head? = some c →
      isPySpace c = false := fun c hc =>
    head?_subRuns_of _ hv_head c hc
  have hlast_t : ∀ c, (normalize_text s).getLast? = some c →
      isPySpace c = false := fun c hc =>
    getLast?_subRunsAux _ false hv_last c hc
  have hmem_t : ∀ c ∈ normalize_text s,
      c = ' ' ∨ c ∈ List.map Char.toLower (pyStrip (removeZWSP s)) :=
    fun _ hc => mem_subRunsAux hc
  have hA : removeZWSP (normalize_text s) = normalize_text s := by
    apply List.filter_eq_self.2
    intro c hc
    apply decide_eq_true
    intro hctr
    rcases hmem_t c hc with rfl | hcv
    · exact absurd hctr (by decide)
    · rcases List.mem_map.1 hcv with ⟨d, hdu, rfl⟩
      have hd8 : d.toNat = 8203 := toLower_zwsp d hctr
      have hdm : d ∈ removeZWSP s := mem_pyStrip hdu
      have hdp := List.of_mem_filter hdm
      exact absurd hd8 (of_decide_eq_true hdp)
  have hB : pyStrip (normalize_text s) = normalize_text s :=
    pyStrip_eq_self _ hhead_t hlast_t
  have hC : List.map Char.toLower (normalize_text s) = normalize_text s := by
    apply map_eq_self_of
    intro c hc
    rcases hmem_t c hc with rfl | hcv
    · decide
    · rcases List.mem_map.1 hcv with ⟨d, _, rfl⟩
      exact toLower_idem d
  have hD : collapseWS (normalize_text s) = normalize_text s := by
    show subRunsAux isPySpace ' ' false (subRunsAux isPySpace ' ' false
      (List.map Char.toLower (pyStrip (removeZWSP s)))) = _
    exact subRunsAux_idem (by decide) _ false
  show collapseWS (List.map Char.toLower (pyStrip (removeZWSP
    (nfkc (normalize_text s))))) = normalize_text s
  rw [show nfkc (normalize_text s) = normalize_text s from rfl,
    hA, hB, hC]
  exact hD
